import Mathlib

/-!
Shallow embedding of the card shuffle/deal/analyze pipeline from
`src/main.rs` of the `shuffle` repository.

Modelling conventions:
* A Rust `Vec<Card>` is a Lean `List Card`; mutation becomes explicit
  state passing.
* `rand::thread_rng` draws are modelled by explicit streams of natural
  numbers (`Nat → Nat`); `rng.gen_range(lo..=hi)` on such a draw `n` is
  `lo + n % (hi + 1 - lo)`, which ranges exactly over `[lo, hi]` — every
  behaviour of the program corresponds to a choice of streams.
* `usize` arithmetic is `Nat` with explicit underflow detection where the
  source can underflow (`riffle_shuffle`'s `deck.len()/2 - 2`): the
  operation is modelled as `Option`-valued, `none` standing for the panic
  (debug: subtraction overflow; release: wrapped value makes
  `gen_range`'s lower bound exceed its upper bound, which panics).
* `f64` values are modelled as real numbers (`ℝ`); `HashMap` is modelled
  as an association list with distinct keys built in insertion order —
  the key/value contents coincide with the Rust map's, only the
  (unspecified) iteration order is fixed by the model.
-/

namespace Shuffle

/-- Rust `enum Color` from the source. -/
inductive Color where
  | Red
  | Blue
  | Green
  | Yellow
  | Wild
  | Skip
deriving DecidableEq, Repr

/-- Rust `enum Value` from the source: `Number(u8)` (1-12), `Wild`, `Skip`. -/
inductive Value where
  | Number (n : Nat)
  | Wild
  | Skip
deriving DecidableEq, Repr

/-- Rust `struct Card { color, value }` from the source. -/
structure Card where
  color : Color
  value : Value
deriving DecidableEq, Repr

def NUM_WILD_CARDS : Nat := 8
def NUM_SKIP_CARDS : Nat := 4
def HAND_SIZE : Nat := 10
def NUM_HANDS : Nat := 4

/-- Rust `fn generate_deck() -> Vec<Card>`: two copies of each number card per
real color (values 1..=12, ascending, colors in the order Red, Blue,
Green, Yellow), then `NUM_WILD_CARDS` Wild cards, then `NUM_SKIP_CARDS`
Skip cards. -/
def generate_deck : List Card :=
  ([Color.Red, Color.Blue, Color.Green, Color.Yellow].flatMap fun color =>
    (List.range 12).flatMap fun i =>
      [⟨color, Value.Number (i + 1)⟩, ⟨color, Value.Number (i + 1)⟩])
  ++ List.replicate NUM_WILD_CARDS ⟨Color.Wild, Value.Wild⟩
  ++ List.replicate NUM_SKIP_CARDS ⟨Color.Skip, Value.Skip⟩

/-- Model of `rng.gen_range(lo..=hi)` applied to the raw draw `n`: a value
in `[lo, hi]` (when `lo ≤ hi`), every such value reachable by some `n`. -/
def genRange (lo hi n : Nat) : Nat := lo + n % (hi + 1 - lo)

/-- Rust `Vec::swap(i, j)`: exchange the elements at positions `i` and `j`
(identity when an index is out of range, which the caller never does). -/
def listSwap (l : List Card) (i j : Nat) : List Card :=
  match l[i]?, l[j]? with
  | some a, some b => (l.set i b).set j a
  | _, _ => l

/-- One run of the Fisher–Yates loop of `rand`'s `SliceRandom::shuffle`
(which `deck.shuffle(&mut rng)` calls): for `i` from `len - 1` down to `1`,
swap position `i` with a uniformly drawn position in `0..=i`. The first
argument of `fyAux` is the current loop index. -/
def fyAux (rng : Nat → Nat) : Nat → List Card → List Card
  | 0, l => l
  | i + 1, l => fyAux rng i (listSwap l (i + 1) (genRange 0 (i + 1) (rng (i + 1))))

/-- The call `deck.shuffle(&mut rng)` (Fisher–Yates over the whole deck). -/
def fisherYates (rng : Nat → Nat) (l : List Card) : List Card :=
  fyAux rng (l.length - 1) l

/-- Rust `fn shuffle_deck(deck, times)`: apply the library shuffle `times`
times; `rngs t` is the stream of draws of repetition `t`. -/
def shuffle_deck (rngs : Nat → Nat → Nat) : Nat → List Card → List Card
  | 0, deck => deck
  | t + 1, deck => shuffle_deck rngs t (fisherYates (rngs t) deck)

/-- The interleaving loop of `fn riffle_shuffle`: while either half is
non-empty, take a run of `gen_range(1..=3)` cards from the left half, then
such a run from the right half (an exhausted half yields nothing). `fuel`
bounds the iteration count; callers pass enough fuel that the fallback
branch (which also preserves the cards) is never reached, since every
iteration consumes at least one card. -/
def riffleLoop (rngL rngR : Nat → Nat) : Nat → Nat → List Card → List Card → List Card
  | 0, _, left, right => left ++ right
  | fuel + 1, k, left, right =>
    if left.length = 0 ∧ right.length = 0 then []
    else
      let tl := genRange 1 3 (rngL k)
      let tr := genRange 1 3 (rngR k)
      left.take tl ++ right.take tr ++
        riffleLoop rngL rngR fuel (k + 1) (left.drop tl) (right.drop tr)

/-- Rust `fn riffle_shuffle(deck)`: draw a split point `mid` uniformly from
`[len/2 - 2, len/2 + 2]`, split the deck there, and interleave the halves.
`deck.len() / 2 - 2` is `usize` arithmetic: when `len/2 < 2` it underflows
and the call panics (debug: overflow panic; release: the wrapped lower
bound exceeds the upper bound and `gen_range` panics); this is modelled as
`none`. `rng 0` is the split draw; odd and even positive indices are the
left-run and right-run draws. -/
def riffle_shuffle (rng : Nat → Nat) (deck : List Card) : Option (List Card) :=
  if deck.length / 2 < 2 then none
  else
    let mid := genRange (deck.length / 2 - 2) (deck.length / 2 + 2) (rng 0)
    some (riffleLoop (fun k => rng (2 * k + 1)) (fun k => rng (2 * k + 2))
      deck.length 0 (deck.take mid) (deck.drop mid))

/-- One pass of `fn overhand_shuffle`: while the deck is non-empty, drain a
chunk of `gen_range(1..=min(len, 10))` cards from the front and prepend it
to the output built so far (`splice(0..0, chunk)`). `fuel` bounds the
iteration count; callers pass enough fuel that the fallback branch (which
also preserves the cards) is never reached. -/
def overhandPass (rng : Nat → Nat) : Nat → Nat → List Card → List Card → List Card
  | 0, _, deck, acc => deck ++ acc
  | fuel + 1, k, deck, acc =>
    if deck.length = 0 then acc
    else
      let cs := genRange 1 (min deck.length 10) (rng k)
      overhandPass rng fuel (k + 1) (deck.drop cs) (deck.take cs ++ acc)

/-- Rust `fn overhand_shuffle(deck, passes)`: iterate the pass; `rngs p` is the
stream of chunk-size draws of pass `p`. -/
def overhand_shuffle (rngs : Nat → Nat → Nat) : Nat → List Card → List Card
  | 0, deck => deck
  | p + 1, deck => overhand_shuffle rngs p (overhandPass (rngs p) deck.length 0 deck [])

/-- Rust `Vec::pop`: remove and return the last element. -/
def popBack (l : List Card) : Option (Card × List Card) :=
  match l.getLast? with
  | none => none
  | some c => some (c, l.dropLast)

/-- One round of `fn deal_hands`: each hand in order pops one card from
the end of the deck (an exhausted deck leaves the hand unchanged).
Returns the remaining deck and the updated hands. -/
def dealRound : List Card → List (List Card) → List Card × List (List Card)
  | deck, [] => (deck, [])
  | deck, h :: hs =>
    match popBack deck with
    | none =>
      let p := dealRound deck hs
      (p.1, h :: p.2)
    | some (c, d) =>
      let p := dealRound d hs
      (p.1, (h ++ [c]) :: p.2)

/-- The round loop of `fn deal_hands`: `hand_size` rounds. -/
def dealLoop : Nat → List Card → List (List Card) → List Card × List (List Card)
  | 0, deck, hands => (deck, hands)
  | n + 1, deck, hands =>
    let p := dealRound deck hands
    dealLoop n p.1 p.2

/-- Rust `fn deal_hands(deck, num_hands, hand_size)`: `num_hands` initially
empty hands, `hand_size` dealing rounds. Returns the remaining deck
(the mutated `deck` argument) and the hands (the Rust return value). -/
def deal_hands (deck : List Card) (num_hands hand_size : Nat) :
    List Card × List (List Card) :=
  dealLoop hand_size deck (List.replicate num_hands [])

/-- The string `format!("{:?}", card.color)` (the derived `Debug` form). -/
def colorKey : Color → String
  | Color.Red => "Red"
  | Color.Blue => "Blue"
  | Color.Green => "Green"
  | Color.Yellow => "Yellow"
  | Color.Wild => "Wild"
  | Color.Skip => "Skip"

/-- The value key string of `fn analyze_randomness`. -/
def valueKey : Value → String
  | Value.Number v => "Number: " ++ toString v
  | Value.Wild => "Wild"
  | Value.Skip => "Skip"

/-- The update `*map.entry(key).or_insert(zero) += v` shared by the two
`HashMap` accumulation patterns of the source, on an association-list
model: add `v` to the key's entry, inserting the key (at value `v`) when
absent. -/
def bumpAdd {β : Type} [AddMonoid β] (m : List (String × β)) (k : String) (v : β) :
    List (String × β) :=
  match m with
  | [] => [(k, v)]
  | (k', w) :: rest =>
    if k' = k then (k', w + v) :: rest else (k', w) :: bumpAdd rest k v

/-- The update `*count.entry(key).or_insert(0) += 1` of
`fn analyze_randomness`. -/
def bump (m : List (String × Nat)) (k : String) : List (String × Nat) :=
  bumpAdd m k 1

/-- The flattened card sequence of a batch of hands, in iteration order. -/
def allCards (hands : List (List Card)) : List Card := hands.flatMap id

/-- The color-count map of `fn analyze_randomness`. -/
def colorCounts (hands : List (List Card)) : List (String × Nat) :=
  (allCards hands).foldl (fun m c => bump m (colorKey c.color)) []

/-- The value-count map of `fn analyze_randomness`. -/
def valueCounts (hands : List (List Card)) : List (String × Nat) :=
  (allCards hands).foldl (fun m c => bump m (valueKey c.value)) []

/-- Rust `fn calculate_entropy(counts, total)`: `Σ` over the stored counts of
`-p·log2 p` for `p = count / total`, a zero or negative `p` contributing
`0`. `f64` is modelled as `ℝ` (so the guard takes the `else` branch
exactly when `count = 0` or `total = 0`, where Rust's `p` is `0.0` or a
non-positive NaN-free value contributing nothing). -/
noncomputable def calculate_entropy (counts : List (String × Nat)) (total : Nat) : ℝ :=
  (counts.map (fun kv =>
    let p : ℝ := (kv.2 : ℝ) / (total : ℝ)
    if 0 < p then -p * Real.logb 2 p else 0)).sum

/-- The color-distribution entries of `fn analyze_randomness`:
`metrics.insert(format!("Color: {}", color), count / total_cards)` for
each stored color count. -/
noncomputable def colorFreqs (hands : List (List Card)) : List (String × ℝ) :=
  (colorCounts hands).map
    (fun kv => ("Color: " ++ kv.1, (kv.2 : ℝ) / (((allCards hands).length : ℝ))))

/-- The value-distribution entries of `fn analyze_randomness`:
`metrics.insert(format!("Value: {}", value), count / total_cards)` for
each stored value count. -/
noncomputable def valueFreqs (hands : List (List Card)) : List (String × ℝ) :=
  (valueCounts hands).map
    (fun kv => ("Value: " ++ kv.1, (kv.2 : ℝ) / (((allCards hands).length : ℝ))))

/-- Rust `fn analyze_randomness(hands)`: per-category relative frequencies
keyed `"Color: <color>"` and `"Value: <value>"`, plus `"Color Entropy"`
and `"Value Entropy"`. All keys are distinct, so the association list
holds exactly the Rust `HashMap`'s contents. -/
noncomputable def analyze_randomness (hands : List (List Card)) : List (String × ℝ) :=
  colorFreqs hands ++ valueFreqs hands
    ++ [("Color Entropy", calculate_entropy (colorCounts hands) (allCards hands).length),
        ("Value Entropy", calculate_entropy (valueCounts hands) (allCards hands).length)]

/-- The per-trial pipeline of `fn main` in the active configuration: every
shuffle call is commented out, so each trial deals from the freshly
generated canonical deck and analyzes the hands. -/
noncomputable def trialMetrics : List (String × ℝ) :=
  analyze_randomness (deal_hands generate_deck NUM_HANDS HAND_SIZE).2

/-- The step function of the accumulation folds of the source
(`*map.entry(kv.key).or_insert(zero) += kv.value`). -/
def aggStep {β : Type} [AddMonoid β] (acc : List (String × β)) (kv : String × β) :
    List (String × β) :=
  bumpAdd acc kv.1 kv.2

/-- The sum of the entry values belonging to key `k`. -/
def keySum {β : Type} [AddCommMonoid β] (entries : List (String × β)) (k : String) : β :=
  ((entries.filter (fun kv => kv.1 == k)).map Prod.snd).sum

/-- The aggregation loop of `fn main`
(`*aggregated_metrics.entry(key).or_insert(0.0) += value` over every
trial's metric map). -/
def aggregate (results : List (List (String × ℝ))) : List (String × ℝ) :=
  results.foldl (fun acc result => result.foldl aggStep acc) []

/-- The per-key average `fn main` prints for a key present in the
aggregated map: the accumulated total divided by the configured iteration
count (the number of trials). -/
noncomputable def printedAverage (results : List (List (String × ℝ))) (k : String) : Option ℝ :=
  ((aggregate results).lookup k).map (fun total => total / (results.length : ℝ))

/-- The summand of `fn calculate_entropy` as a function of the stored
count (the map in the source iterates over `counts.values()`). -/
noncomputable def entropyTerm (total : Nat) (c : Nat) : ℝ :=
  let p : ℝ := (c : ℝ) / (total : ℝ)
  if 0 < p then -p * Real.logb 2 p else 0

/-- Modelled from the spec's words, for comparison with `generate_deck`:
the fixed canonical order, "all number cards grouped by color and
ascending value with two copies each, then all Wild cards, then all Skip
cards" (108 cards, 4 real colors × 12 numbers × 2 copies, 8 Wild,
4 Skip). -/
def canonicalDeckSpec : List Card :=
  ([Color.Red, Color.Blue, Color.Green, Color.Yellow].flatMap fun color =>
    ((List.range 12).map (· + 1)).flatMap fun v =>
      List.replicate 2 ⟨color, Value.Number v⟩)
  ++ List.replicate 8 ⟨Color.Wild, Value.Wild⟩
  ++ List.replicate 4 ⟨Color.Skip, Value.Skip⟩

/-- Count bookkeeping of a single `List.set` at an occupied position. -/
theorem count_set_add (l : List Card) (i : Nat) (a : Card) (h : l[i]? = some a)
    (b c : Card) :
    (l.set i b).count c + (if a = c then 1 else 0)
      = l.count c + (if b = c then 1 else 0) := by
  have hi : i < l.length := (List.getElem?_eq_some.mp h).1
  have ha : l[i] = a := by
    have h2 := List.getElem?_eq_getElem hi
    rw [h] at h2
    exact (Option.some.inj h2).symm
  conv_rhs => rw [← List.take_append_drop i l, ← List.getElem_cons_drop l i hi]
  rw [List.set_eq_take_cons_drop b hi, ha]
  simp only [List.count_append, List.count_cons, beq_iff_eq]
  split_ifs <;> omega

/-- A `Vec::swap` is a permutation. -/
theorem listSwap_perm (l : List Card) (i j : Nat) : (listSwap l i j).Perm l := by
  rcases hi : l[i]? with _ | a
  · rcases hj : l[j]? with _ | b <;> simp [listSwap, hi, hj]
  · rcases hj : l[j]? with _ | b
    · simp [listSwap, hi, hj]
    · simp only [listSwap, hi, hj]
      rw [List.perm_iff_count]
      intro c
      by_cases hij : i = j
      · subst hij
        have hab : a = b := Option.some.inj (hi.symm.trans hj)
        subst hab
        rw [List.set_set]
        have h1 := count_set_add l i a hi a c
        split_ifs at h1 <;> omega
      · have hj' : (l.set i b)[j]? = some b := by
          rw [List.getElem?_set_ne hij]
          exact hj
        have h1 := count_set_add (l.set i b) j b hj' a c
        have h2 := count_set_add l i a hi b c
        split_ifs at h1 h2 <;> omega

/-- The Fisher–Yates loop is a permutation. -/
theorem fyAux_perm (rng : Nat → Nat) (i : Nat) : ∀ l, (fyAux rng i l).Perm l := by
  induction i with
  | zero => intro l; exact List.Perm.refl l
  | succ n ih => intro l; exact (ih _).trans (listSwap_perm _ _ _)

/-- Iterated library shuffles are permutations. -/
theorem shuffle_deck_perm (rngs : Nat → Nat → Nat) (times : Nat) :
    ∀ deck, (shuffle_deck rngs times deck).Perm deck := by
  induction times with
  | zero => intro deck; exact List.Perm.refl deck
  | succ t ih => intro deck; exact (ih _).trans (fyAux_perm _ _ _)

/-- The riffle interleaving loop permutes the two halves. -/
theorem riffleLoop_perm (rngL rngR : Nat → Nat) (fuel : Nat) :
    ∀ (k : Nat) (left right : List Card),
      (riffleLoop rngL rngR fuel k left right).Perm (left ++ right) := by
  induction fuel with
  | zero => intro k l r; exact List.Perm.refl _
  | succ f ih =>
    intro k l r
    simp only [riffleLoop]
    split
    · next h =>
      rw [List.length_eq_zero.mp h.1, List.length_eq_zero.mp h.2]
      exact List.Perm.refl _
    · rw [List.perm_iff_count]
      intro c
      have ihc := (ih (k + 1) (l.drop (genRange 1 3 (rngL k)))
        (r.drop (genRange 1 3 (rngR k)))).count_eq c
      have hl := congrArg (List.count c) (List.take_append_drop (genRange 1 3 (rngL k)) l)
      have hr := congrArg (List.count c) (List.take_append_drop (genRange 1 3 (rngR k)) r)
      simp only [List.count_append] at ihc hl hr ⊢
      omega

/-- A riffle shuffle that returns permutes the deck. -/
theorem riffle_shuffle_perm (rng : Nat → Nat) (deck out : List Card)
    (h : riffle_shuffle rng deck = some out) : out.Perm deck := by
  unfold riffle_shuffle at h
  split at h
  · exact absurd h (by simp)
  · have hout := Option.some.inj h
    have hp := riffleLoop_perm (fun k => rng (2 * k + 1)) (fun k => rng (2 * k + 2))
      deck.length 0
      (deck.take (genRange (deck.length / 2 - 2) (deck.length / 2 + 2) (rng 0)))
      (deck.drop (genRange (deck.length / 2 - 2) (deck.length / 2 + 2) (rng 0)))
    rw [List.take_append_drop] at hp
    exact hout ▸ hp

/-- One overhand pass permutes deck and accumulator. -/
theorem overhandPass_perm (rng : Nat → Nat) (fuel : Nat) :
    ∀ (k : Nat) (deck acc : List Card),
      (overhandPass rng fuel k deck acc).Perm (deck ++ acc) := by
  induction fuel with
  | zero => intro k deck acc; exact List.Perm.refl _
  | succ f ih =>
    intro k deck acc
    simp only [overhandPass]
    split
    · next h =>
      rw [List.length_eq_zero.mp h]
      exact List.Perm.refl _
    · rw [List.perm_iff_count]
      intro c
      have ihc := (ih (k + 1) (deck.drop (genRange 1 (min deck.length 10) (rng k)))
        (deck.take (genRange 1 (min deck.length 10) (rng k)) ++ acc)).count_eq c
      have hd := congrArg (List.count c)
        (List.take_append_drop (genRange 1 (min deck.length 10) (rng k)) deck)
      simp only [List.count_append] at ihc hd ⊢
      omega

/-- The overhand shuffle is a permutation. -/
theorem overhand_shuffle_perm (rngs : Nat → Nat → Nat) (passes : Nat) :
    ∀ deck, (overhand_shuffle rngs passes deck).Perm deck := by
  induction passes with
  | zero => intro deck; exact List.Perm.refl deck
  | succ p ih =>
    intro deck
    refine (ih _).trans ?_
    have hp := overhandPass_perm (rngs p) deck.length 0 deck []
    rw [List.append_nil] at hp
    exact hp

/-- Popping from the empty deck yields nothing. -/
theorem popBack_nil : popBack [] = none := rfl

/-- A successful pop decomposes the deck. -/
theorem popBack_eq_some (deck : List Card) (c : Card) (d : List Card)
    (h : popBack deck = some (c, d)) : deck = d ++ [c] := by
  unfold popBack at h
  rcases hg : deck.getLast? with _ | c'
  · rw [hg] at h; exact absurd h (by simp)
  · rw [hg] at h
    have hne : deck ≠ [] := by
      intro he
      rw [he] at hg
      exact absurd hg (by simp)
    have hc := Option.some.inj h
    rw [Prod.mk.injEq] at hc
    obtain ⟨hc1, hc2⟩ := hc
    have hl := List.getLast?_eq_getLast deck hne
    rw [hg] at hl
    have hcl : c' = deck.getLast hne := Option.some.inj hl
    have hsplit := List.dropLast_append_getLast hne
    rw [← hcl, hc1, hc2] at hsplit
    exact hsplit.symm

/-- One dealing round conserves the cards: hands plus remaining deck is a
permutation of hands plus incoming deck. -/
theorem dealRound_conserve (hands : List (List Card)) :
    ∀ deck : List Card,
      (((dealRound deck hands).2.flatMap id) ++ (dealRound deck hands).1).Perm
        ((hands.flatMap id) ++ deck) := by
  induction hands with
  | nil => intro deck; simp [dealRound]
  | cons h hs ih =>
    intro deck
    rcases hd : popBack deck with _ | ⟨c0, d⟩
    · have hdeck : deck = [] := by
        rcases deck with _ | ⟨x, xs⟩
        · rfl
        · unfold popBack at hd
          rcases hg : (x :: xs).getLast? with _ | y
          · exact absurd (List.getLast?_eq_none_iff.mp hg) (by simp)
          · rw [hg] at hd; exact absurd hd (by simp)
      subst hdeck
      simp only [dealRound, hd]
      rw [List.perm_iff_count]
      intro c
      have ihc := (ih []).count_eq c
      simp only [List.flatMap_cons, id, List.count_append] at ihc ⊢
      omega
    · have hdeck := popBack_eq_some deck c0 d hd
      simp only [dealRound, hd]
      rw [List.perm_iff_count]
      intro c
      have ihc := (ih d).count_eq c
      rw [hdeck]
      simp only [List.flatMap_cons, id, List.count_append] at ihc ⊢
      simp only [List.count_singleton]
      omega

/-- The dealing loop conserves the cards. -/
theorem dealLoop_conserve (n : Nat) :
    ∀ (deck : List Card) (hands : List (List Card)),
      (((dealLoop n deck hands).2.flatMap id) ++ (dealLoop n deck hands).1).Perm
        ((hands.flatMap id) ++ deck) := by
  induction n with
  | zero => intro deck hands; exact List.Perm.refl _
  | succ m ih =>
    intro deck hands
    exact (ih _ _).trans (dealRound_conserve hands deck)

/-- Dealing conserves the cards: the flattened hands together with the
remaining deck are a permutation of the input deck. -/
theorem deal_hands_conserve (deck : List Card) (num_hands hand_size : Nat) :
    (((deal_hands deck num_hands hand_size).2.flatMap id)
      ++ (deal_hands deck num_hands hand_size).1).Perm deck := by
  have h := dealLoop_conserve hand_size deck (List.replicate num_hands [])
  simpa using h

/-- A round on an exhausted deck changes nothing. -/
theorem dealRound_nil (hands : List (List Card)) : dealRound [] hands = ([], hands) := by
  induction hands with
  | nil => rfl
  | cons h hs ih => simp [dealRound, popBack_nil, ih]

/-- The dealing loop on an exhausted deck changes nothing. -/
theorem dealLoop_nil (n : Nat) :
    ∀ hands : List (List Card), dealLoop n [] hands = ([], hands) := by
  induction n with
  | zero => intro hands; rfl
  | succ m ih => intro hands; simp [dealLoop, dealRound_nil, ih]

/-- Looking up the key just stored at the head. -/
theorem lookup_cons_self {β : Type} (k : String) (v : β) (rest : List (String × β)) :
    ((k, v) :: rest).lookup k = some v := by
  simp [List.lookup]

/-- Looking up past a head with a different key. -/
theorem lookup_cons_ne {β : Type} (k k' : String) (v : β) (rest : List (String × β))
    (h : k ≠ k') : ((k', v) :: rest).lookup k = rest.lookup k := by
  have hb : (k == k') = false := beq_eq_false_iff_ne.mpr h
  simp [List.lookup, hb]

/-- Lookup bookkeeping of one accumulation update. -/
theorem bumpAdd_lookup {β : Type} [AddMonoid β] (m : List (String × β)) (k' : String)
    (v : β) (k : String) :
    (bumpAdd m k' v).lookup k =
      if k = k' then some (((m.lookup k).getD 0) + v) else m.lookup k := by
  induction m with
  | nil =>
    by_cases hk : k = k'
    · subst hk; simp [bumpAdd, lookup_cons_self]
    · rw [if_neg hk]
      show ([(k', v)].lookup k) = ([] : List (String × β)).lookup k
      rw [lookup_cons_ne _ _ _ _ hk]
  | cons kv rest ih =>
    obtain ⟨k0, w⟩ := kv
    simp only [bumpAdd]
    by_cases h0 : k0 = k'
    · subst h0
      rw [if_pos rfl]
      by_cases hk : k = k0
      · subst hk
        rw [if_pos rfl, lookup_cons_self, lookup_cons_self]
        simp
      · rw [if_neg hk, lookup_cons_ne _ _ _ _ hk, lookup_cons_ne _ _ _ _ hk]
    · rw [if_neg h0]
      by_cases hk : k = k0
      · have hkk' : ¬(k = k') := by
          intro he
          exact h0 (hk.symm.trans he)
        subst hk
        rw [lookup_cons_self, if_neg hkk', lookup_cons_self]
      · rw [lookup_cons_ne _ _ _ _ hk, lookup_cons_ne _ _ _ _ hk, ih]

/-- Key bookkeeping of one accumulation update. -/
theorem bumpAdd_keys {β : Type} [AddMonoid β] (m : List (String × β)) (k' : String)
    (v : β) :
    (bumpAdd m k' v).map Prod.fst =
      if k' ∈ m.map Prod.fst then m.map Prod.fst else m.map Prod.fst ++ [k'] := by
  induction m with
  | nil => simp [bumpAdd]
  | cons kv rest ih =>
    obtain ⟨k0, w⟩ := kv
    simp only [bumpAdd]
    by_cases h0 : k0 = k'
    · subst h0; simp
    · rw [if_neg h0]
      simp only [List.map_cons, List.mem_cons]
      rw [ih]
      by_cases hk : k' ∈ rest.map Prod.fst
      · rw [if_pos hk, if_pos (Or.inr hk)]
      · rw [if_neg hk, if_neg ?hne]
        · simp
        case hne =>
          rintro (he | hm)
          · exact h0 he.symm
          · exact hk hm

/-- Accumulation updates keep the keys distinct. -/
theorem bumpAdd_keys_nodup {β : Type} [AddMonoid β] (m : List (String × β)) (k' : String)
    (v : β) (h : (m.map Prod.fst).Nodup) : ((bumpAdd m k' v).map Prod.fst).Nodup := by
  rw [bumpAdd_keys]
  split
  · exact h
  · next hk => simp [List.nodup_append, h, hk]

/-- Value-sum bookkeeping of one accumulation update. -/
theorem bumpAdd_values_sum {β : Type} [AddCommMonoid β] (m : List (String × β))
    (k' : String) (v : β) :
    ((bumpAdd m k' v).map Prod.snd).sum = (m.map Prod.snd).sum + v := by
  induction m with
  | nil => simp [bumpAdd]
  | cons kv rest ih =>
    obtain ⟨k0, w⟩ := kv
    simp only [bumpAdd]
    by_cases h0 : k0 = k'
    · subst h0
      simp [add_assoc, add_comm, add_left_comm]
    · rw [if_neg h0]
      simp only [List.map_cons, List.sum_cons, ih]
      rw [add_assoc]

/-- A key/value pair of a distinct-key association list is found by lookup. -/
theorem lookup_of_mem_nodup {β : Type} (m : List (String × β)) (k : String) (v : β)
    (hnd : (m.map Prod.fst).Nodup) (h : (k, v) ∈ m) : m.lookup k = some v := by
  induction m with
  | nil => cases h
  | cons kv rest ih =>
    obtain ⟨k0, w⟩ := kv
    rcases List.mem_cons.mp h with heq | hmem
    · obtain ⟨h1, h2⟩ := Prod.mk.injEq k v k0 w |>.mp heq
      subst h1; subst h2
      exact lookup_cons_self k v rest
    · have hkne : k ≠ k0 := by
        intro he
        subst he
        have hmem' : k ∈ rest.map Prod.fst :=
          List.mem_map_of_mem Prod.fst hmem
        exact (List.nodup_cons.mp (by simpa using hnd)).1 hmem'
      rw [lookup_cons_ne _ _ _ _ hkne]
      exact ih (List.nodup_cons.mp (by simpa using hnd)).2 hmem

/-- Lookup characterization of an accumulation fold: when the lookup finds
nothing, and the value it finds otherwise (a key missing from every entry
and from the initial map stays missing; a found value is the initial value
plus the sum of the key's entry values). -/
theorem foldl_aggStep_lookup {β : Type} [AddCommMonoid β] (entries : List (String × β)) :
    ∀ (m : List (String × β)) (k : String),
      ((entries.foldl aggStep m).lookup k = none ↔
        (entries.map Prod.fst).count k = 0 ∧ m.lookup k = none)
      ∧ ((entries.foldl aggStep m).lookup k).getD 0
          = ((m.lookup k).getD 0) + keySum entries k := by
  induction entries with
  | nil =>
    intro m k
    refine ⟨by simp, ?_⟩
    simp [keySum]
  | cons kv rest ih =>
    intro m k
    obtain ⟨k0, v0⟩ := kv
    have hstep : ((k0, v0) :: rest).foldl aggStep m = rest.foldl aggStep (bumpAdd m k0 v0) := rfl
    obtain ⟨ih1, ih2⟩ := ih (bumpAdd m k0 v0) k
    rw [hstep]
    by_cases hk : k = k0
    · subst hk
      constructor
      · rw [ih1, bumpAdd_lookup, if_pos rfl]
        simp [List.count_cons]
      · rw [ih2, bumpAdd_lookup, if_pos rfl]
        have hks : keySum ((k, v0) :: rest) k = v0 + keySum rest k := by
          simp [keySum]
        rw [hks]
        simp [add_assoc]
    · have hkf : (k0 == k) = false := beq_eq_false_iff_ne.mpr (fun he => hk he.symm)
      constructor
      · rw [ih1, bumpAdd_lookup, if_neg hk]
        have hcount : (((k0, v0) :: rest).map Prod.fst).count k
            = (rest.map Prod.fst).count k := by
          simp [List.count_cons, hkf]
        rw [hcount]
      · rw [ih2, bumpAdd_lookup, if_neg hk]
        have hks : keySum ((k0, v0) :: rest) k = keySum rest k := by
          simp [keySum, hkf]
        rw [hks]

/-- Key-set characterization of an accumulation fold. -/
theorem foldl_aggStep_keys_mem {β : Type} [AddMonoid β] (entries : List (String × β)) :
    ∀ (m : List (String × β)) (k : String),
      (k ∈ ((entries.foldl aggStep m).map Prod.fst)
        ↔ k ∈ m.map Prod.fst ∨ k ∈ entries.map Prod.fst) := by
  induction entries with
  | nil => intro m k; simp
  | cons kv rest ih =>
    intro m k
    obtain ⟨k0, v0⟩ := kv
    have hstep : ((k0, v0) :: rest).foldl aggStep m = rest.foldl aggStep (bumpAdd m k0 v0) := rfl
    rw [hstep, ih (bumpAdd m k0 v0) k]
    rw [bumpAdd_keys]
    by_cases h0 : k0 ∈ m.map Prod.fst
    · rw [if_pos h0]
      simp only [List.map_cons, List.mem_cons]
      constructor
      · rintro (hm | hr)
        · exact Or.inl hm
        · exact Or.inr (Or.inr hr)
      · rintro (hm | he | hr)
        · exact Or.inl hm
        · subst he; exact Or.inl h0
        · exact Or.inr hr
    · rw [if_neg h0]
      simp only [List.mem_append, List.mem_singleton, List.map_cons, List.mem_cons,
        List.not_mem_nil, or_false]
      tauto

/-- Distinct keys are preserved by an accumulation fold. -/
theorem foldl_aggStep_keys_nodup {β : Type} [AddMonoid β] (entries : List (String × β)) :
    ∀ (m : List (String × β)), (m.map Prod.fst).Nodup →
      ((entries.foldl aggStep m).map Prod.fst).Nodup := by
  induction entries with
  | nil => intro m h; exact h
  | cons kv rest ih =>
    intro m h
    exact ih (bumpAdd m kv.1 kv.2) (bumpAdd_keys_nodup m kv.1 kv.2 h)

/-- Value-sum characterization of an accumulation fold. -/
theorem foldl_aggStep_values_sum {β : Type} [AddCommMonoid β] (entries : List (String × β)) :
    ∀ (m : List (String × β)),
      ((entries.foldl aggStep m).map Prod.snd).sum
        = (m.map Prod.snd).sum + (entries.map Prod.snd).sum := by
  induction entries with
  | nil => intro m; simp
  | cons kv rest ih =>
    intro m
    have hstep : (kv :: rest).foldl aggStep m = rest.foldl aggStep (bumpAdd m kv.1 kv.2) := rfl
    rw [hstep, ih, bumpAdd_values_sum]
    simp [add_assoc]

/-- A counting fold over cards is the key-list counting fold. -/
theorem foldl_bump_eq_map (cards : List Card) (f : Card → String) :
    cards.foldl (fun m c => bump m (f c)) [] = (cards.map f).foldl bump [] := by
  rw [List.foldl_map]

/-- The counting fold is the accumulation fold over weight-one entries. -/
theorem countMap_eq_aggStep (keys : List String) :
    keys.foldl bump [] = (keys.map (fun k => (k, (1 : Nat)))).foldl aggStep [] := by
  rw [List.foldl_map]
  rfl

/-- Counting-fold keys are exactly the distinct keys seen. -/
theorem countMap_keys_mem (keys : List String) (k : String) :
    k ∈ (keys.foldl bump []).map Prod.fst ↔ k ∈ keys := by
  rw [countMap_eq_aggStep, foldl_aggStep_keys_mem]
  simp

/-- Counting-fold keys are distinct. -/
theorem countMap_keys_nodup (keys : List String) :
    ((keys.foldl bump []).map Prod.fst).Nodup := by
  rw [countMap_eq_aggStep]
  exact foldl_aggStep_keys_nodup _ [] (by simp)

/-- The per-key sum of weight-one entries is the key count. -/
theorem keySum_ones (keys : List String) (k : String) :
    keySum (keys.map (fun k => (k, (1 : Nat)))) k = keys.count k := by
  unfold keySum
  rw [List.filter_map]
  have hcomp : ((fun kv : String × Nat => kv.1 == k) ∘ (fun k' => (k', (1 : Nat))))
      = fun k' => k' == k := rfl
  rw [hcomp, List.map_map]
  have hmap : (Prod.snd ∘ fun k' : String => ((k', (1 : Nat)) : String × Nat))
      = fun _ : String => (1 : Nat) := rfl
  rw [hmap, List.count_eq_countP, List.countP_eq_length_filter]
  simp

/-- Counting-fold lookup: a key lookup finds exactly its number of
occurrences, and finds nothing only for unseen keys. -/
theorem countMap_lookup (keys : List String) (k : String) :
    ((keys.foldl bump []).lookup k = none ↔ keys.count k = 0)
    ∧ ((keys.foldl bump []).lookup k).getD 0 = keys.count k := by
  rw [countMap_eq_aggStep]
  obtain ⟨h1, h2⟩ := foldl_aggStep_lookup (keys.map (fun k => (k, (1 : Nat)))) [] k
  have hfst : (Prod.fst ∘ fun k' : String => ((k', (1 : Nat)) : String × Nat)) = id := rfl
  constructor
  · rw [h1]
    simp [List.map_map, hfst]
  · rw [h2, keySum_ones]
    simp

/-- A stored count is the key's occurrence count, and is positive. -/
theorem countMap_mem_val (keys : List String) (k : String) (n : Nat)
    (h : (k, n) ∈ keys.foldl bump []) : n = keys.count k ∧ 1 ≤ n := by
  have hl := lookup_of_mem_nodup _ k n (countMap_keys_nodup keys) h
  obtain ⟨h1, h2⟩ := countMap_lookup keys k
  rw [hl] at h1 h2
  simp only [Option.getD_some] at h2
  constructor
  · exact h2
  · rcases Nat.eq_zero_or_pos (keys.count k) with h0 | h0
    · exact absurd (h1.mpr h0) (by simp)
    · omega

/-- The stored counts sum to the number of keys seen. -/
theorem countMap_values_sum (keys : List String) :
    ((keys.foldl bump []).map Prod.snd).sum = keys.length := by
  rw [countMap_eq_aggStep, foldl_aggStep_values_sum]
  have hmap : (Prod.snd ∘ fun k' : String => ((k', (1 : Nat)) : String × Nat))
      = fun _ : String => (1 : Nat) := rfl
  simp [List.map_map, hmap]

/-- Rewriting the entropy sum over the values list. -/
theorem calculate_entropy_eq (counts : List (String × Nat)) (total : Nat) :
    calculate_entropy counts total
      = ((counts.map Prod.snd).map (entropyTerm total)).sum := by
  unfold calculate_entropy entropyTerm
  rw [List.map_map]
  rfl

/-- An entropy summand with positive count and total. -/
theorem entropyTerm_pos_eq (T c : Nat) (hc : 1 ≤ c) (hT : 0 < T) :
    entropyTerm T c
      = -(((c : ℝ)) / (T : ℝ)) * Real.logb 2 ((c : ℝ) / (T : ℝ)) := by
  unfold entropyTerm
  have hp : 0 < (c : ℝ) / (T : ℝ) := by
    apply div_pos
    · exact_mod_cast hc
    · exact_mod_cast hT
  rw [if_pos hp]

/-- Every entropy summand of a positive-count distribution is
nonnegative. -/
theorem entropyTerm_nonneg (T c : Nat) (hc : 1 ≤ c) (hcT : c ≤ T) (hT : 0 < T) :
    0 ≤ entropyTerm T c := by
  rw [entropyTerm_pos_eq T c hc hT]
  have hp : 0 < (c : ℝ) / (T : ℝ) := by
    apply div_pos
    · exact_mod_cast hc
    · exact_mod_cast hT
  have hple : (c : ℝ) / (T : ℝ) ≤ 1 := by
    rw [div_le_one (by exact_mod_cast hT)]
    exact_mod_cast hcT
  have hlog : Real.logb 2 ((c : ℝ) / (T : ℝ)) ≤ 0 :=
    Real.logb_nonpos one_lt_two hp.le hple
  rw [neg_mul_comm]
  exact mul_nonneg hp.le (neg_nonneg.mpr hlog)

/-- Shannon entropy bounds for `fn calculate_entropy` over a stored-count
list whose counts are positive and sum to the total: the entropy is
nonnegative and at most the base-2 log of the number of categories. -/
theorem calculate_entropy_bounds (counts : List (String × Nat)) (total : Nat)
    (hv : ∀ kv ∈ counts, 1 ≤ kv.2)
    (ht : total = (counts.map Prod.snd).sum) (h0 : 0 < total) :
    0 ≤ calculate_entropy counts total
      ∧ calculate_entropy counts total ≤ Real.logb 2 (counts.length : ℝ) := by
  rw [calculate_entropy_eq]
  have hcs : ∀ c ∈ counts.map Prod.snd, 1 ≤ c := by
    intro c hc
    obtain ⟨kv, hkv, hsnd⟩ := List.mem_map.mp hc
    exact hsnd ▸ hv kv hkv
  have hcsT : ∀ c ∈ counts.map Prod.snd, c ≤ total := by
    intro c hc
    rw [ht]
    exact List.single_le_sum (fun _ _ => Nat.zero_le _) c hc
  constructor
  · apply List.sum_nonneg
    intro x hx
    obtain ⟨c, hc, hterm⟩ := List.mem_map.mp hx
    exact hterm ▸ entropyTerm_nonneg total c (hcs c hc) (hcsT c hc) h0
  · set cs : List Nat := counts.map Prod.snd with hcs_def
    have hlen : counts.length = cs.length := (List.length_map counts Prod.snd).symm
    rw [hlen]
    have hofn : cs.map (entropyTerm total)
        = List.ofFn (fun i : Fin cs.length => entropyTerm total (cs.get i)) := by
      conv_lhs => rw [← List.ofFn_get cs]
      rw [List.map_ofFn]
      rfl
    rw [hofn, List.sum_ofFn]
    have hTR : (0 : ℝ) < (total : ℝ) := by exact_mod_cast h0
    set w : Fin cs.length → ℝ := fun i => ((cs.get i : ℝ)) / (total : ℝ) with hw_def
    have hwpos : ∀ i, 0 < w i := by
      intro i
      apply div_pos
      · exact_mod_cast hcs (cs.get i) (cs.get_mem i.1 i.2)
      · exact hTR
    have hcast : cs.map (Nat.cast : Nat → ℝ)
        = List.ofFn (fun i : Fin cs.length => ((cs.get i : ℝ))) := by
      conv_lhs => rw [← List.ofFn_get cs]
      rw [List.map_ofFn]
      rfl
    have hsumcast : (∑ i : Fin cs.length, ((cs.get i : ℝ))) = ((cs.sum : Nat) : ℝ) := by
      rw [Nat.cast_list_sum, hcast, List.sum_ofFn]
    have hwsum : (∑ i : Fin cs.length, w i) = 1 := by
      rw [hw_def]
      rw [← Finset.sum_div, hsumcast, ← ht]
      exact div_self hTR.ne'
    have hterm : ∀ i : Fin cs.length,
        entropyTerm total (cs.get i) = w i * Real.log ((w i)⁻¹) / Real.log 2 := by
      intro i
      rw [entropyTerm_pos_eq total (cs.get i) (hcs _ (cs.get_mem i.1 i.2)) h0]
      rw [neg_mul_comm, ← Real.logb_inv, Real.logb, mul_div_assoc]
    have hsum_rw : (∑ i : Fin cs.length, entropyTerm total (cs.get i))
        = (∑ i : Fin cs.length, w i * Real.log ((w i)⁻¹)) / Real.log 2 := by
      rw [Finset.sum_div]
      exact Finset.sum_congr rfl (fun i _ => hterm i)
    rw [hsum_rw]
    have hjensen : (∑ i : Fin cs.length, w i * Real.log ((w i)⁻¹))
        ≤ Real.log (∑ i : Fin cs.length, w i * (w i)⁻¹) := by
      have hcc : ConcaveOn ℝ (Set.Ioi 0) Real.log := strictConcaveOn_log_Ioi.concaveOn
      have hj := hcc.le_map_sum (t := Finset.univ) (w := w) (p := fun i => (w i)⁻¹)
        (fun i _ => (hwpos i).le) hwsum (fun i _ => Set.mem_Ioi.mpr (inv_pos.mpr (hwpos i)))
      simpa [smul_eq_mul] using hj
    have hinv : (∑ i : Fin cs.length, w i * (w i)⁻¹) = (cs.length : ℝ) := by
      have hone : ∀ i ∈ Finset.univ, w i * (w i)⁻¹ = (1 : ℝ) := by
        intro i _
        exact mul_inv_cancel₀ (hwpos i).ne'
      rw [Finset.sum_congr rfl hone]
      simp
    rw [hinv] at hjensen
    have hlog2 : 0 < Real.log 2 := Real.log_pos one_lt_two
    have hdiv : (∑ i : Fin cs.length, w i * Real.log ((w i)⁻¹)) / Real.log 2
        ≤ Real.log (cs.length : ℝ) / Real.log 2 := by
      gcongr
    rw [Real.log_div_log] at hdiv
    exact hdiv



/-- C1: `generate_deck` always returns exactly 108 cards in the fixed
canonical order — for each of the four real colors and each value 1..12
exactly 2 copies, grouped by color in ascending value order, followed by
exactly 8 Wild cards and 4 Skip cards; the output is a constant of the
program (no randomness), hence identical on every call. -/
theorem C1_generate_deck_canonical :
    generate_deck.length = 108 ∧
    generate_deck = canonicalDeckSpec ∧
    (∀ color ∈ [Color.Red, Color.Blue, Color.Green, Color.Yellow],
      ∀ v : Nat, 1 ≤ v → v ≤ 12 →
        generate_deck.count ⟨color, Value.Number v⟩ = 2) ∧
    generate_deck.count ⟨Color.Wild, Value.Wild⟩ = 8 ∧
    generate_deck.count ⟨Color.Skip, Value.Skip⟩ = 4 := by
  refine ⟨by decide, by decide, ?_, by decide, by decide⟩
  intro color hc v h1 h2
  interval_cases v <;> fin_cases hc <;> decide

/-- C1 witness: the canonical deck holds two Red 5 cards. -/
theorem C1_witness : generate_deck.count ⟨Color.Red, Value.Number 5⟩ = 2 :=
  C1_generate_deck_canonical.2.2.1 Color.Red (by decide) 5 (by decide) (by decide)

/-- C2: every shuffle algorithm leaves the multiset of cards unchanged:
for every deck and every choice of random draws, the count of every card
and the deck length are preserved (for the riffle, whenever the call
returns a deck). -/
theorem C2_shuffles_preserve_multiset :
    (∀ (rngs : Nat → Nat → Nat) (times : Nat) (deck : List Card),
      (shuffle_deck rngs times deck).length = deck.length ∧
      ∀ c : Card, (shuffle_deck rngs times deck).count c = deck.count c) ∧
    (∀ (rng : Nat → Nat) (deck out : List Card), riffle_shuffle rng deck = some out →
      out.length = deck.length ∧ ∀ c : Card, out.count c = deck.count c) ∧
    (∀ (rngs : Nat → Nat → Nat) (passes : Nat) (deck : List Card),
      (overhand_shuffle rngs passes deck).length = deck.length ∧
      ∀ c : Card, (overhand_shuffle rngs passes deck).count c = deck.count c) := by
  refine ⟨?_, ?_, ?_⟩
  · intro rngs times deck
    exact ⟨(shuffle_deck_perm rngs times deck).length_eq,
      fun c => (shuffle_deck_perm rngs times deck).count_eq c⟩
  · intro rng deck out h
    have hp := riffle_shuffle_perm rng deck out h
    exact ⟨hp.length_eq, fun c => hp.count_eq c⟩
  · intro rngs passes deck
    have hp := overhand_shuffle_perm rngs passes deck
    exact ⟨hp.length_eq, fun c => hp.count_eq c⟩

/-- C2 witness: a concrete riffle of the first four canonical cards
(split point 2, runs of one card) interleaves them and preserves length
and the count of the Red 1 card. -/
theorem C2_witness :
    ([⟨Color.Red, Value.Number 1⟩, ⟨Color.Red, Value.Number 2⟩,
      ⟨Color.Red, Value.Number 1⟩, ⟨Color.Red, Value.Number 2⟩] : List Card).length
        = (generate_deck.take 4).length ∧
    ([⟨Color.Red, Value.Number 1⟩, ⟨Color.Red, Value.Number 2⟩,
      ⟨Color.Red, Value.Number 1⟩, ⟨Color.Red, Value.Number 2⟩] : List Card).count
        ⟨Color.Red, Value.Number 1⟩
      = (generate_deck.take 4).count ⟨Color.Red, Value.Number 1⟩ := by
  have h := C2_shuffles_preserve_multiset.2.1 (fun n => if n = 0 then 2 else 0)
    (generate_deck.take 4)
    [⟨Color.Red, Value.Number 1⟩, ⟨Color.Red, Value.Number 2⟩,
      ⟨Color.Red, Value.Number 1⟩, ⟨Color.Red, Value.Number 2⟩] (by decide)
  exact ⟨h.1, h.2 ⟨Color.Red, Value.Number 1⟩⟩

/-- C3 counterexample: the riffle shuffle has no minimum-length fallback —
on a 3-card deck its split-point computation `deck.len()/2 - 2`
underflows, so the call fails rather than returning a shuffled deck. -/
theorem C3_counterexample :
    riffle_shuffle (fun _ => 0) (generate_deck.take 3) = none := by decide

/-- C3 (amended): `riffle_shuffle` contains no explicit small-deck
fallback; its split-point computation underflows exactly on decks of
fewer than 4 cards (the call fails), and under the precondition
`4 ≤ deck.length` the underflow branch is unreachable. -/
theorem C3_riffle_underflow_guard (rng : Nat → Nat) (deck : List Card) :
    riffle_shuffle rng deck = none ↔ deck.length < 4 := by
  unfold riffle_shuffle
  split
  · next h =>
    simp only [true_iff]
    omega
  · next h =>
    simp only [reduceCtorEq, false_iff]
    omega

/-- C4: dealing pops the last card of the deck first (stack order), one
card per hand per round in round-robin order, stops silently when the
deck runs out, and conserves cards — for the full canonical deck with 4
hands of 10: exactly 40 cards dealt, 68 left, and hands plus remaining
deck permute the deck (so no card is dealt into two hands); the indexing
identity confirms hand `i` receives deck position `107 - (4*j + i)` as
its `j`-th card. -/
theorem C4_deal_hands_conservation :
    (∀ (deck : List Card) (n k : Nat),
      (((deal_hands deck n k).2.flatMap id) ++ (deal_hands deck n k).1).Perm deck) ∧
    (∀ n k : Nat, deal_hands [] n k = ([], List.replicate n [])) ∧
    ((deal_hands generate_deck NUM_HANDS HAND_SIZE).2.flatMap id).length = 40 ∧
    (deal_hands generate_deck NUM_HANDS HAND_SIZE).1.length = 68 ∧
    ((List.range NUM_HANDS).all fun i => (List.range HAND_SIZE).all fun j =>
      ((deal_hands generate_deck NUM_HANDS HAND_SIZE).2.getD i []).getD j
          ⟨Color.Red, Value.Number 0⟩
        == generate_deck.getD (107 - (NUM_HANDS * j + i))
          ⟨Color.Red, Value.Number 0⟩) = true := by
  refine ⟨?_, ?_, by decide, by decide, by decide⟩
  · intro deck n k
    exact deal_hands_conserve deck n k
  · intro n k
    unfold deal_hands
    exact dealLoop_nil k (List.replicate n [])

/-- C5: in the no-shuffle configuration the trial's hands contain exactly
the last 40 cards of the canonical deck, the 4 Skip and 8 Wild cards are
dealt (times 0..11) before any number card (times 12..39), and the
trial's metrics are the analyzer applied to exactly those hands. -/
theorem C5_no_shuffle_trial :
    trialMetrics = analyze_randomness (deal_hands generate_deck NUM_HANDS HAND_SIZE).2 ∧
    ((deal_hands generate_deck NUM_HANDS HAND_SIZE).2.flatMap id).Perm
      (generate_deck.drop 68) ∧
    ((List.range 40).all fun t =>
      match ((deal_hands generate_deck NUM_HANDS HAND_SIZE).2.getD (t % NUM_HANDS)
          []).getD (t / NUM_HANDS) ⟨Color.Red, Value.Number 0⟩ with
      | ⟨_, Value.Number _⟩ => decide (12 ≤ t)
      | _ => decide (t < 12)) = true := by
  exact ⟨rfl, by decide, by decide⟩

/-- C9: the analyzer is deterministic — it consults no randomness source,
so two calls on the same hand batch return identical metric maps (same
keys and values). -/
theorem C9_analyze_deterministic (h1 h2 : List (List Card)) (heq : h1 = h2) :
    analyze_randomness h1 = analyze_randomness h2 := by
  rw [heq]

/-- C9 witness: two calls on a fixed one-card batch agree. -/
theorem C9_witness :
    analyze_randomness [[⟨Color.Red, Value.Number 1⟩]]
      = analyze_randomness [[⟨Color.Red, Value.Number 1⟩]] :=
  C9_analyze_deterministic _ _ rfl

/-- C10: on a batch with zero cards the analyzer returns exactly the two
entropy entries, both 0 (a real number, not NaN), and no frequency
entries — the count maps are empty so no division by the zero total is
ever performed. -/
theorem C10_analyze_empty_batch (hands : List (List Card)) (h : allCards hands = []) :
    analyze_randomness hands = [("Color Entropy", 0), ("Value Entropy", 0)] := by
  unfold analyze_randomness colorFreqs valueFreqs colorCounts valueCounts
  rw [h]
  simp [calculate_entropy]

/-- C10 witness: a batch of two empty hands. -/
theorem C10_witness :
    analyze_randomness [[], []] = [("Color Entropy", 0), ("Value Entropy", 0)] :=
  C10_analyze_empty_batch [[], []] rfl


/-- Dividing each list element by a constant divides the sum. -/
theorem list_sum_map_div (l : List ℝ) (c : ℝ) :
    (l.map (fun x => x / c)).sum = l.sum / c := by
  induction l with
  | nil => simp
  | cons x xs ih => simp [ih, add_div]

/-- The relative frequencies stored for a counting fold sum to one. -/
theorem freqs_sum_eq_one (keys : List String) (T : Nat) (hT : T = keys.length)
    (h : T ≠ 0) :
    ((keys.foldl bump []).map (fun kv => ((kv.2 : ℝ)) / ((T : ℝ)))).sum = 1 := by
  have h1 : (keys.foldl bump []).map (fun kv => ((kv.2 : ℝ) / (T : ℝ)))
      = ((keys.foldl bump []).map (fun kv => ((kv.2 : ℝ)))).map (fun x => x / (T : ℝ)) := by
    rw [List.map_map]
    rfl
  have h2 : ((keys.foldl bump []).map (fun kv => ((kv.2 : ℝ)))).sum = (T : ℝ) := by
    have h3 : (keys.foldl bump []).map (fun kv => ((kv.2 : ℝ)))
        = ((keys.foldl bump []).map Prod.snd).map (Nat.cast : Nat → ℝ) := by
      rw [List.map_map]
      rfl
    rw [h3, ← Nat.cast_list_sum, countMap_values_sum, hT]
  rw [h1, list_sum_map_div, h2]
  exact div_self (by exact_mod_cast h)

/-- The color-count map as a counting fold over the color keys. -/
theorem colorCounts_eq (hands : List (List Card)) :
    colorCounts hands
      = ((allCards hands).map (fun c => colorKey c.color)).foldl bump [] :=
  foldl_bump_eq_map (allCards hands) (fun c => colorKey c.color)

/-- The value-count map as a counting fold over the value keys. -/
theorem valueCounts_eq (hands : List (List Card)) :
    valueCounts hands
      = ((allCards hands).map (fun c => valueKey c.value)).foldl bump [] :=
  foldl_bump_eq_map (allCards hands) (fun c => valueKey c.value)

/-- C6: on a non-empty batch, the metric map is the frequency entries
followed by the two entropies; every `"Color: _"` entry's value is its
category's count divided by the batch size, and those values sum to 1;
likewise for the `"Value: _"` entries. -/
theorem C6_frequencies (hands : List (List Card))
    (h : (allCards hands).length ≠ 0) :
    (analyze_randomness hands
      = colorFreqs hands ++ valueFreqs hands
        ++ [("Color Entropy",
              calculate_entropy (colorCounts hands) (allCards hands).length),
            ("Value Entropy",
              calculate_entropy (valueCounts hands) (allCards hands).length)]) ∧
    (∀ kv ∈ colorFreqs hands, ∃ key : String, kv.1 = "Color: " ++ key ∧
      kv.2 = ((((allCards hands).map (fun c => colorKey c.color)).count key : ℝ))
        / ((allCards hands).length : ℝ)) ∧
    ((colorFreqs hands).map Prod.snd).sum = 1 ∧
    (∀ kv ∈ valueFreqs hands, ∃ key : String, kv.1 = "Value: " ++ key ∧
      kv.2 = ((((allCards hands).map (fun c => valueKey c.value)).count key : ℝ))
        / ((allCards hands).length : ℝ)) ∧
    ((valueFreqs hands).map Prod.snd).sum = 1 := by
  refine ⟨rfl, ?_, ?_, ?_, ?_⟩
  · intro kv hkv
    obtain ⟨kv0, hkv0, heq⟩ := List.mem_map.mp hkv
    rw [colorCounts_eq] at hkv0
    obtain ⟨hcnt, _⟩ := countMap_mem_val _ kv0.1 kv0.2 hkv0
    refine ⟨kv0.1, ?_, ?_⟩
    · rw [← heq]
    · rw [← heq, ← hcnt]
  · have h1 : (colorFreqs hands).map Prod.snd
        = (colorCounts hands).map
            (fun kv => ((kv.2 : ℝ)) / ((allCards hands).length : ℝ)) := by
      unfold colorFreqs
      rw [List.map_map]
      rfl
    rw [h1, colorCounts_eq]
    exact freqs_sum_eq_one _ _ (List.length_map _ _).symm h
  · intro kv hkv
    obtain ⟨kv0, hkv0, heq⟩ := List.mem_map.mp hkv
    rw [valueCounts_eq] at hkv0
    obtain ⟨hcnt, _⟩ := countMap_mem_val _ kv0.1 kv0.2 hkv0
    refine ⟨kv0.1, ?_, ?_⟩
    · rw [← heq]
    · rw [← heq, ← hcnt]
  · have h1 : (valueFreqs hands).map Prod.snd
        = (valueCounts hands).map
            (fun kv => ((kv.2 : ℝ)) / ((allCards hands).length : ℝ)) := by
      unfold valueFreqs
      rw [List.map_map]
      rfl
    rw [h1, valueCounts_eq]
    exact freqs_sum_eq_one _ _ (List.length_map _ _).symm h

/-- C6 witness: a one-card batch has frequency sums one for both
distributions. -/
theorem C6_witness :
    ((colorFreqs [[⟨Color.Red, Value.Number 1⟩]]).map Prod.snd).sum = 1 ∧
    ((valueFreqs [[⟨Color.Red, Value.Number 1⟩]]).map Prod.snd).sum = 1 :=
  ⟨(C6_frequencies [[⟨Color.Red, Value.Number 1⟩]] (by decide)).2.2.1,
   (C6_frequencies [[⟨Color.Red, Value.Number 1⟩]] (by decide)).2.2.2.2⟩

/-- C7: on a non-empty batch both entropy entries of the metric map are
nonnegative and at most the base-2 log of the number of distinct observed
categories of their distribution (the count maps have distinct keys,
exactly the observed categories), and a zero-count category contributes 0
(not NaN) to the entropy sum. -/
theorem C7_entropy_bounds (hands : List (List Card))
    (h : (allCards hands).length ≠ 0) :
    (("Color Entropy",
        calculate_entropy (colorCounts hands) (allCards hands).length)
          ∈ analyze_randomness hands ∧
      0 ≤ calculate_entropy (colorCounts hands) (allCards hands).length ∧
      calculate_entropy (colorCounts hands) (allCards hands).length
        ≤ Real.logb 2 ((colorCounts hands).length : ℝ)) ∧
    (("Value Entropy",
        calculate_entropy (valueCounts hands) (allCards hands).length)
          ∈ analyze_randomness hands ∧
      0 ≤ calculate_entropy (valueCounts hands) (allCards hands).length ∧
      calculate_entropy (valueCounts hands) (allCards hands).length
        ≤ Real.logb 2 ((valueCounts hands).length : ℝ)) ∧
    (∀ (counts : List (String × Nat)) (k : String) (total : Nat),
      calculate_entropy ((k, 0) :: counts) total = calculate_entropy counts total) ∧
    ((colorCounts hands).map Prod.fst).Nodup ∧
    (∀ k : String, k ∈ (colorCounts hands).map Prod.fst
      ↔ k ∈ (allCards hands).map (fun c => colorKey c.color)) ∧
    ((valueCounts hands).map Prod.fst).Nodup ∧
    (∀ k : String, k ∈ (valueCounts hands).map Prod.fst
      ↔ k ∈ (allCards hands).map (fun c => valueKey c.value)) := by
  have hcb := calculate_entropy_bounds (colorCounts hands) (allCards hands).length
    ?hcv ?hct (by omega)
  case hcv =>
    intro kv hkv
    rw [colorCounts_eq] at hkv
    exact (countMap_mem_val _ kv.1 kv.2 hkv).2
  case hct =>
    rw [colorCounts_eq, countMap_values_sum, List.length_map]
  have hvb := calculate_entropy_bounds (valueCounts hands) (allCards hands).length
    ?hvv ?hvt (by omega)
  case hvv =>
    intro kv hkv
    rw [valueCounts_eq] at hkv
    exact (countMap_mem_val _ kv.1 kv.2 hkv).2
  case hvt =>
    rw [valueCounts_eq, countMap_values_sum, List.length_map]
  refine ⟨⟨?_, hcb.1, hcb.2⟩, ⟨?_, hvb.1, hvb.2⟩, ?_, ?_, ?_, ?_, ?_⟩
  · simp [analyze_randomness]
  · simp [analyze_randomness]
  · intro counts k total
    simp [calculate_entropy]
  · rw [colorCounts_eq]
    exact countMap_keys_nodup _
  · intro k
    rw [colorCounts_eq]
    exact countMap_keys_mem _ k
  · rw [valueCounts_eq]
    exact countMap_keys_nodup _
  · intro k
    rw [valueCounts_eq]
    exact countMap_keys_mem _ k

/-- C7 witness: bounds instantiated on a one-card batch. -/
theorem C7_witness :
    0 ≤ calculate_entropy (colorCounts [[⟨Color.Red, Value.Number 1⟩]])
        (allCards [[⟨Color.Red, Value.Number 1⟩]]).length ∧
    calculate_entropy (colorCounts [[⟨Color.Red, Value.Number 1⟩]])
        (allCards [[⟨Color.Red, Value.Number 1⟩]]).length
      ≤ Real.logb 2 ((colorCounts [[⟨Color.Red, Value.Number 1⟩]]).length : ℝ) :=
  ⟨(C7_entropy_bounds [[⟨Color.Red, Value.Number 1⟩]] (by decide)).1.2.1,
   (C7_entropy_bounds [[⟨Color.Red, Value.Number 1⟩]] (by decide)).1.2.2⟩


/-- A key absent from all entries has zero key sum. -/
theorem keySum_zero_of_not_mem {β : Type} [AddCommMonoid β] (r : List (String × β))
    (k : String) (h : ¬ k ∈ r.map Prod.fst) : keySum r k = 0 := by
  induction r with
  | nil => rfl
  | cons kv rest ih =>
    have h1 : ¬ k = kv.1 := fun he => h (by simp [he])
    have hb : (kv.1 == k) = false := beq_eq_false_iff_ne.mpr (fun he => h1 he.symm)
    unfold keySum
    rw [List.filter_cons, hb]
    exact ih (fun hm => h (by simp [hm]))

/-- With distinct keys, the key sum is the looked-up value. -/
theorem keySum_eq_lookup {β : Type} [AddCommMonoid β] (r : List (String × β))
    (k : String) (hnd : (r.map Prod.fst).Nodup) :
    keySum r k = ((r.lookup k).getD 0) := by
  induction r with
  | nil => rfl
  | cons kv rest ih =>
    obtain ⟨k0, v0⟩ := kv
    by_cases hk : k = k0
    · subst hk
      rw [lookup_cons_self]
      have hnotin : ¬ k ∈ rest.map Prod.fst :=
        (List.nodup_cons.mp (by simpa using hnd)).1
      have hz := keySum_zero_of_not_mem rest k hnotin
      unfold keySum at hz ⊢
      rw [List.filter_cons]
      simp only [beq_self_eq_true, if_true, List.map_cons, List.sum_cons, hz, add_zero]
      rfl
    · have hb : ((k0, v0).1 == k) = false :=
        beq_eq_false_iff_ne.mpr (fun he => hk he.symm)
      rw [lookup_cons_ne _ _ _ _ hk]
      unfold keySum
      rw [List.filter_cons, hb]
      exact ih (List.nodup_cons.mp (by simpa using hnd)).2

/-- The aggregated total of a key is the initial value plus the sum of
the key's per-trial sums. -/
theorem aggregate_foldl_getD (results : List (List (String × ℝ))) :
    ∀ (m : List (String × ℝ)) (k : String),
      ((results.foldl (fun acc r => r.foldl aggStep acc) m).lookup k).getD 0
        = (m.lookup k).getD 0 + (results.map (fun r => keySum r k)).sum := by
  induction results with
  | nil => intro m k; simp
  | cons r rs ih =>
    intro m k
    have hstep : ((r :: rs).foldl (fun acc r => r.foldl aggStep acc) m)
        = rs.foldl (fun acc r => r.foldl aggStep acc) (r.foldl aggStep m) := rfl
    obtain ⟨_, hv⟩ := foldl_aggStep_lookup r m k
    rw [hstep, ih (r.foldl aggStep m) k, hv]
    simp [add_assoc]

/-- C8 counterexample: with two trials and a key present only in the
first (value 1), the printed average is 1/2 — the denominator is the
total trial count — not the contributing-trials average 1/1. -/
theorem C8_counterexample :
    printedAverage [[("A", (1 : ℝ))], [("B", (2 : ℝ))]] "A" = some (1 / 2) ∧
    ¬ printedAverage [[("A", (1 : ℝ))], [("B", (2 : ℝ))]] "A"
        = some (((([[("A", (1 : ℝ))], [("B", (2 : ℝ))]]).filterMap
            (fun r => r.lookup "A")).sum)
          / ((([[("A", (1 : ℝ))], [("B", (2 : ℝ))]]).filterMap
            (fun r => r.lookup "A")).length : ℝ)) := by
  have hagg : aggregate [[("A", (1 : ℝ))], [("B", (2 : ℝ))]]
      = [("A", (1 : ℝ)), ("B", (2 : ℝ))] := rfl
  have hlook : (aggregate [[("A", (1 : ℝ))], [("B", (2 : ℝ))]]).lookup "A"
      = some (1 : ℝ) := rfl
  have hfm : (([[("A", (1 : ℝ))], [("B", (2 : ℝ))]]).filterMap
      (fun r => r.lookup "A")) = [(1 : ℝ)] := rfl
  constructor
  · unfold printedAverage
    rw [hlook]
    norm_num
  · unfold printedAverage
    rw [hlook, hfm]
    intro hcontra
    have h2 := Option.some.inj hcontra
    norm_num at h2

/-- C8 (amended): the printed per-key average divides the key's
accumulated total by the full trial count; a trial missing the key
contributes nothing to the total and the denominator is not reduced. The
accumulated total is exactly the sum of the key's values over the trials
in which it appears. -/
theorem C8_average_total_denominator (results : List (List (String × ℝ)))
    (k : String) (s : ℝ)
    (hnd : ∀ r ∈ results, (r.map Prod.fst).Nodup)
    (h : (aggregate results).lookup k = some s) :
    s = (results.map (fun r => ((r.lookup k).getD 0 : ℝ))).sum ∧
    printedAverage results k
      = some ((results.map (fun r => ((r.lookup k).getD 0 : ℝ))).sum
          / (results.length : ℝ)) := by
  have hs : s = (results.map (fun r => keySum r k)).sum := by
    have hv := aggregate_foldl_getD results [] k
    have h' : ((aggregate results).lookup k).getD 0 = s := by
      rw [h]
      rfl
    unfold aggregate at h'
    rw [hv] at h'
    simpa using h'.symm
  have hmapeq : results.map (fun r => keySum r k)
      = results.map (fun r => ((r.lookup k).getD 0 : ℝ)) :=
    List.map_congr_left (fun r hr => keySum_eq_lookup r k (hnd r hr))
  constructor
  · rw [hs, hmapeq]
  · unfold printedAverage
    rw [h, hs, hmapeq]
    rfl

/-- C8 witness: the key "B" of the two concrete trials is present in the
second trial only; the printed average is its accumulated sum over the
two-trial count. -/
theorem C8_witness :
    printedAverage [[("A", (1 : ℝ))], [("B", (2 : ℝ))]] "B"
      = some ((([[("A", (1 : ℝ))], [("B", (2 : ℝ))]].map
            (fun r => ((r.lookup "B").getD 0 : ℝ))).sum)
          / (([[("A", (1 : ℝ))], [("B", (2 : ℝ))]].length : ℝ))) :=
  (C8_average_total_denominator [[("A", (1 : ℝ))], [("B", (2 : ℝ))]] "B" 2
    (by decide) rfl).2

end Shuffle
